import Mathlib

/-!
Verification of the retrieval pipeline of the azure-avatar-rag repository.

The Python sources are shallowly embedded: Python strings become `List Char`,
floats become `ℚ`, dicts (insertion ordered) become association lists, and
fallible calls return `Except`.  The token-counting strategy modelled is the
approximate fallback mode of `backend/chunker.py` (`len(text) // 4`), which is
the fully specified mode (the exact mode delegates to the external tiktoken
library).
-/

namespace AvatarRag

/-- Python `str` modelled as a list of characters. -/
abbrev Str := List Char

/-- Embedding vectors: Python `List[float]` modelled over `ℚ`. -/
abbrev Vec := List ℚ

/-! ### TokenCounter (approximate fallback mode) and Chunker, from backend/chunker.py -/

/-- Python `\s` on the ASCII range, as used by `re.split` and `str.strip`. -/
def pyIsSpace (c : Char) : Bool :=
  c = ' ' || c = '\t' || c = '\n' || c = '\r' || c = '\x0b' || c = '\x0c'

/-- Python `str.strip()`: remove leading and trailing whitespace. -/
def pyStrip (t : Str) : Str :=
  ((t.dropWhile pyIsSpace).reverse.dropWhile pyIsSpace).reverse

/-- Model of `DocumentChunker._count_tokens`, fallback branch: `len(text) // 4`. -/
def countTokens (t : Str) : ℕ :=
  t.length / 4

/-- Scanner for `re.split(r'(?<=[.!?])\s+', text)`: a sentence ends after a
`.`, `!` or `?` that is immediately followed by whitespace; the whitespace run
is consumed as the delimiter.  `cur` holds the current fragment reversed;
`skip` is true while consuming the whitespace run of a delimiter (so the
invariant `skip → cur = []` holds at every call site). -/
def sentGo (skip : Bool) (cur : Str) : Str → List Str
  | [] => [cur.reverse]
  | c :: rest =>
    if skip && pyIsSpace c then sentGo true cur rest
    else if (c = '.' || c = '!' || c = '?')
        && (match rest with | r :: _ => pyIsSpace r | [] => false) then
      (c :: cur).reverse :: sentGo true [] rest
    else
      sentGo false (c :: cur) rest

/-- Model of `DocumentChunker._split_sentences`. -/
def splitSentences (t : Str) : List Str :=
  ((sentGo false [] (pyStrip t)).map pyStrip).filter (fun p => p ≠ [])

/-- Python `" ".join(parts)`. -/
def joinSpace (parts : List Str) : Str :=
  List.intercalate [' '] parts

/-- Chunking configuration (`config.chunk_*`).  `overlap_tokens` is an `ℤ`
because `_apply_overlap` branches on `overlap_tokens <= 0`. -/
structure ChunkConfig where
  target_tokens : ℕ
  max_tokens : ℕ
  overlap_tokens : ℤ
  min_chunk_tokens : ℕ
deriving DecidableEq, Repr

/-- A chunk dictionary `{"text": ..., "chunk_index": ..., "doc_id": ...}`. -/
structure Chunk where
  text : Str
  chunk_index : ℕ
  doc_id : Str
deriving DecidableEq, Repr

/-- Model of `chunks.append(...)` with `chunk_index = len(chunks)` and the
given `doc_id`. -/
def appendChunk (docId : Str) (chunks : List Chunk) (t : Str) : List Chunk :=
  chunks ++ [⟨t, chunks.length, docId⟩]

/-- Model of `DocumentChunker._hard_split`, fallback branch: fixed character windows of
`max_tokens * 4` characters.  (With `max_tokens = 0` Python's `range` with step
0 raises; theorems about this function assume `1 ≤ max_tokens`.) -/
def hardSplit (maxTokens : ℕ) (t : Str) : List Str :=
  let size := maxTokens * 4
  (List.range ((t.length + size - 1) / size)).map (fun q => (t.drop (q * size)).take size)

/-- Loop state of `chunk_document`: accumulated chunks, the pending sentence
buffer `current_sentences` and its running token total `current_tokens`. -/
structure AccState where
  chunks : List Chunk
  cur : List Str
  curTok : ℕ
deriving DecidableEq, Repr

/-- Flush `current_sentences` as an extra chunk if non-empty. -/
def flushCur (docId : Str) (st : AccState) : List Chunk :=
  if st.cur = [] then st.chunks else appendChunk docId st.chunks (joinSpace st.cur)

/-- Body of the sentence loop of `chunk_document`. -/
def chunkStep (cfg : ChunkConfig) (docId : Str) (st : AccState) (sentence : Str) :
    AccState :=
  let stok := countTokens sentence
  if cfg.max_tokens < stok then
    let chunks1 := flushCur docId st
    let chunks2 := (hardSplit cfg.max_tokens sentence).foldl
      (fun cs hc => appendChunk docId cs hc) chunks1
    ⟨chunks2, [], 0⟩
  else if st.curTok + stok ≤ cfg.target_tokens then
    ⟨st.chunks, st.cur ++ [sentence], st.curTok + stok⟩
  else
    ⟨flushCur docId st, [sentence], stok⟩

/-- One step of the loop of `DocumentChunker._merge_small_chunks`; the state is
`(merged, buffer)`. -/
def mergeStep (cfg : ChunkConfig) (st : List Chunk × Option Chunk) (chunk : Chunk) :
    List Chunk × Option Chunk :=
  let (merged, buffer) := st
  if countTokens chunk.text < cfg.min_chunk_tokens then
    match buffer with
    | none => (merged, some chunk)
    | some b =>
      let b2 : Chunk := { b with text := b.text ++ ' ' :: chunk.text }
      if cfg.min_chunk_tokens ≤ countTokens b2.text then (merged ++ [b2], none)
      else (merged, some b2)
  else
    match buffer with
    | some b => (merged ++ [b, chunk], none)
    | none => (merged ++ [chunk], none)

/-- Append the leftover buffer after the merge loop. -/
def mergeFlush (st : List Chunk × Option Chunk) : List Chunk :=
  match st.2 with
  | some b => st.1 ++ [b]
  | none => st.1

/-- The re-indexing loop `for i, chunk in enumerate(merged): chunk["chunk_index"] = i`. -/
def reindexFrom (i : ℕ) : List Chunk → List Chunk
  | [] => []
  | c :: cs => { c with chunk_index := i } :: reindexFrom (i + 1) cs

/-- Model of `DocumentChunker._merge_small_chunks`. -/
def mergeSmallChunks (cfg : ChunkConfig) (chunks : List Chunk) : List Chunk :=
  if chunks = [] then []
  else reindexFrom 0 (mergeFlush (chunks.foldl (mergeStep cfg) ([], none)))

/-- Python slice `text[-k:]` for `0 ≤ k < len(text)` (note `text[-0:]` is the
whole string). -/
def pyTailSlice (t : Str) (k : ℕ) : Str :=
  if k = 0 then t else t.drop (t.length - k)

/-- Model of `DocumentChunker._get_tail`, fallback branch: the last `4 * n` characters
when the text is longer than that, the whole text otherwise. -/
def getTail (t : Str) (n : ℕ) : Str :=
  if 4 * n < t.length then pyTailSlice t (4 * n) else t

/-- Overlap transformation of one chunk from its predecessor's text. -/
def overlapChunk (cfg : ChunkConfig) (prev cur : Chunk) : Chunk :=
  { cur with text := getTail prev.text cfg.overlap_tokens.toNat ++ ' ' :: cur.text }

/-- Model of `DocumentChunker._apply_overlap`: prepend the tail of the previous chunk's
original text; identity when `overlap_tokens <= 0` or fewer than two chunks. -/
def applyOverlap (cfg : ChunkConfig) (chunks : List Chunk) : List Chunk :=
  if cfg.overlap_tokens ≤ 0 ∨ chunks.length < 2 then chunks
  else
    match chunks with
    | [] => []
    | c :: rest => c :: List.zipWith (overlapChunk cfg) chunks rest

/-- Model of `DocumentChunker.chunk_document`: sentence accumulation, merge pass,
overlap pass. -/
def chunkDocument (cfg : ChunkConfig) (text docId : Str) : List Chunk :=
  let sentences := splitSentences text
  let st := sentences.foldl (chunkStep cfg docId) ⟨[], [], 0⟩
  let chunks := flushCur docId st
  applyOverlap cfg (mergeSmallChunks cfg chunks)

/-! ### EmbeddingsClient, from backend/embedder.py

The in-memory cache `self._cache` is a Python dict keyed by `_get_cache_key`
(an md5 hex digest); insertion order is observable (`next(iter(...))` yields
the first inserted key), so the dict is modelled as an association list in
insertion order.  The key function is kept abstract as a parameter `keyFn`. -/

/-- The embedding cache: an insertion-ordered association list. -/
abbrev Cache := List (Str × Vec)

/-- Python dict lookup `d[key]` / `key in d` on an insertion-ordered
association list. -/
def dictGet {α β : Type} [DecidableEq α] : List (α × β) → α → Option β
  | [], _ => none
  | (k', v) :: rest, k => if k' = k then some v else dictGet rest k

/-- Python dict assignment `d[key] = v`: update in place if the key is
present (keeping its position), append otherwise. -/
def dictSet {α β : Type} [DecidableEq α] : List (α × β) → α → β → List (α × β)
  | [], k, v => [(k, v)]
  | (k', v') :: rest, k, v =>
    if k' = k then (k, v) :: rest else (k', v') :: dictSet rest k v

/-- Model of `EmbeddingsClient._update_cache`: when the cache has reached
`max_cache_size`, delete the oldest (first inserted) entry, then assign. -/
def updateCache (maxC : ℕ) (c : Cache) (k : Str) (v : Vec) : Cache :=
  let c1 := if maxC ≤ c.length then c.drop 1 else c
  dictSet c1 k v

/-- The `base` of the synthetic fallback vector:
`sum(ord(c) for c in text) or 1`. -/
def fallbackBase (t : Str) : ℕ :=
  let s := (t.map Char.toNat).sum
  if s = 0 then 1 else s

/-- The synthetic vector for the text at miss-batch position `i`:
component `j` is `((base * (j + i + 1)) % 17) / 17`. -/
def fallbackVec (dim i : ℕ) (t : Str) : Vec :=
  (List.range dim).map (fun j => (((fallbackBase t * (j + i + 1)) % 17 : ℕ) : ℚ) / 17)

/-- Model of `EmbeddingsClient._embed_fallback`. -/
def embedFallback (dim : ℕ) (texts : List Str) : List Vec :=
  texts.enum.map (fun p => fallbackVec dim p.1 p.2)

/-- Result of the cache-scanning loop of `embed_texts`: `texts_to_embed`,
`indices_to_embed`, `cached_vectors`, `cached_indices`, all in input order.
`i` is the position of the first element of the remaining input. -/
structure ScanResult where
  missTexts : List Str
  missIdx : List ℕ
  hitVecs : List Vec
  hitIdx : List ℕ
deriving DecidableEq, Repr

/-- The cache-scanning loop of `embed_texts`. -/
def cacheScan (keyFn : Str → Str) (cache : Cache) : List Str → ℕ → ScanResult
  | [], _ => ⟨[], [], [], []⟩
  | t :: ts, i =>
    let r := cacheScan keyFn cache ts (i + 1)
    match dictGet cache (keyFn t) with
    | some v => ⟨r.missTexts, r.missIdx, v :: r.hitVecs, i :: r.hitIdx⟩
    | none => ⟨t :: r.missTexts, i :: r.missIdx, r.hitVecs, r.hitIdx⟩

/-- The reconstruction loops `for idx, vec in zip(indices, vecs): vectors[idx] = vec`
over the preallocated `vectors = [None] * len(texts)`. -/
def scatter (arr : List (Option Vec)) (pairs : List (ℕ × Vec)) : List (Option Vec) :=
  pairs.foldl (fun a p => a.set p.1 (some p.2)) arr

/-- The cache-update loop
`for text, vector in zip(texts_to_embed, new_vectors): self._update_cache(...)`. -/
def updateCacheBatch (keyFn : Str → Str) (maxC : ℕ) (cache : Cache)
    (texts : List Str) (vecs : List Vec) : Cache :=
  (texts.zip vecs).foldl (fun c p => updateCache maxC c (keyFn p.1) p.2) cache

/-- Model of `EmbeddingsClient.embed_texts`.  `remote` is `none` when no Azure client is
configured (`self._client is None`); otherwise `some f`, where `f` returns
`.error ()` when `_embed_with_openai_retry` raises on every attempt and
`.ok vectors` when a remote call succeeds.  Returns the `vectors` list (whose
entries are `Option`s, as in the preallocated Python list) and the new cache. -/
def embedTexts (keyFn : Str → Str) (remote : Option (List Str → Except Unit (List Vec)))
    (dim maxC : ℕ) (cache : Cache) (texts : List Str) :
    List (Option Vec) × Cache :=
  if texts = [] then ([], cache)
  else
    let sc := cacheScan keyFn cache texts 0
    let step2 : List Vec × Cache :=
      if sc.missTexts = [] then ([], cache)
      else
        match remote with
        | some f =>
          match f sc.missTexts with
          | .ok vs => (vs, updateCacheBatch keyFn maxC cache sc.missTexts vs)
          | .error _ => (embedFallback dim sc.missTexts, cache)
        | none =>
          let vs := embedFallback dim sc.missTexts
          (vs, updateCacheBatch keyFn maxC cache sc.missTexts vs)
    let arr := scatter (List.replicate texts.length none) (sc.hitIdx.zip sc.hitVecs)
    (scatter arr (sc.missIdx.zip step2.1), step2.2)

/-! ### CosmosDBClient.search_similar, from backend/cosmos_db.py -/

/-- An item produced by the vector query (a Cosmos document projection); field
access in the code goes through `dict.get`, hence the `Option`s.  The effective
distance is `item.get("distance", 1.0)`. -/
structure QueryItem where
  id : Option Str
  filename : Option Str
  text : Option Str
  chunk_index : Option ℕ
  distance : Option ℚ
deriving DecidableEq, Repr

/-- A retrieval result dictionary built by `search_similar`. -/
structure RetrievalResult where
  id : Option Str
  filename : Option Str
  text : Option Str
  chunk_index : Option ℕ
  similarity : ℚ
deriving DecidableEq, Repr

/-- Observable state of the `CosmosDBClient` collaborator: connection status,
container handle presence, the cached document count, and the outcome of the
vector query as a function of the `@top_k` parameter (`.error` when
`query_items` raises). -/
structure StoreState where
  connected : Bool
  hasContainer : Bool
  documentCount : ℕ
  queryResult : ℕ → Except Unit (List QueryItem)

/-- Model of `CosmosDBClient.is_available`. -/
def isAvailable (st : StoreState) : Bool :=
  st.connected && st.hasContainer

/-- Model of `CosmosDBClient.has_documents`. -/
def hasDocuments (st : StoreState) : Bool :=
  0 < st.documentCount

/-- The per-item filter of the result loop of `search_similar`. -/
def toRetrievalResult (minSim : ℚ) (it : QueryItem) : Option RetrievalResult :=
  let sim := 1 - it.distance.getD 1
  if minSim ≤ sim then some ⟨it.id, it.filename, it.text, it.chunk_index, sim⟩
  else none

/-- Model of `CosmosDBClient.search_similar`.  The second component records whether the
vector query was issued to the container. -/
def searchSimilar (st : StoreState) (topK : ℕ) (minSim : ℚ) :
    List RetrievalResult × Bool :=
  if ¬ isAvailable st then ([], false)
  else if ¬ hasDocuments st then ([], false)
  else
    match st.queryResult topK with
    | .error _ => ([], true)
    | .ok items => (items.filterMap (toRetrievalResult minSim), true)

/-! ### Theorems -/

theorem countTokens_getTail_le (t : Str) (n : ℕ) :
    countTokens (getTail t n) ≤ countTokens t := by
  unfold getTail pyTailSlice countTokens
  split
  · split
    · exact le_rfl
    · exact Nat.div_le_div_right (by rw [List.length_drop]; omega)
  · exact le_rfl

theorem countTokens_pos_of_length (t : Str) (h : 4 ≤ t.length) :
    1 ≤ countTokens t := by
  unfold countTokens
  exact le_trans (by norm_num) (Nat.div_le_div_right h)

/-- Claim C4, counterexample: in the approximate counting mode the text `"a"`
is non-empty yet `_count_tokens` returns `1 // 4 = 0`, so the claim
`count(text) >= 1 for non-empty text` fails at this input. -/
theorem claim_C4_counterexample :
    ¬ ((['a'] : Str) ≠ [] → 1 ≤ countTokens ['a']) := by
  decide

/-- Claim C4, amended: in the approximate token-counting mode, for every text
and every `n`, the token count of `_get_tail text n` is at most the token
count of the whole text; and the count is at least 1 for every text of at
least 4 characters (texts of 1 to 3 characters are non-empty but count 0). -/
theorem claim_C4_amended (t : Str) (n : ℕ) :
    countTokens (getTail t n) ≤ countTokens t ∧ (4 ≤ t.length → 1 ≤ countTokens t) :=
  ⟨countTokens_getTail_le t n, countTokens_pos_of_length t⟩

/-- Witness for claim C4's amended theorem at the text `"abcd"`. -/
theorem claim_C4_witness :
    countTokens (getTail (['a', 'b', 'c', 'd'] : Str) 1) ≤
        countTokens (['a', 'b', 'c', 'd'] : Str) ∧
      1 ≤ countTokens (['a', 'b', 'c', 'd'] : Str) :=
  ⟨(claim_C4_amended ['a', 'b', 'c', 'd'] 1).1,
    (claim_C4_amended ['a', 'b', 'c', 'd'] 1).2 (by decide)⟩

/-- Claim C3, counterexample: with `target_tokens = 1`, `max_tokens = 2`,
`overlap_tokens = 0`, `min_chunk_tokens = 0`, the document `"a. a. a. a. a."`
(five sentences of 2 characters, each counting `2 // 4 = 0` tokens) is
accumulated into a single passage whose joined text has 14 characters and
hence `14 // 4 = 3 > 2 = max_tokens` tokens: an emitted passage exceeds
`max_tokens` without any hard split being involved. -/
theorem claim_C3_counterexample :
    (chunkDocument ⟨1, 2, 0, 0⟩
        ['a', '.', ' ', 'a', '.', ' ', 'a', '.', ' ', 'a', '.', ' ', 'a', '.']
        ['d']).map (fun c => countTokens c.text) = [3] ∧
      ¬ (∀ c ∈ chunkDocument ⟨1, 2, 0, 0⟩
            ['a', '.', ' ', 'a', '.', ' ', 'a', '.', ' ', 'a', '.', ' ', 'a', '.']
            ['d'],
          countTokens c.text ≤ (⟨1, 2, 0, 0⟩ : ChunkConfig).max_tokens) := by
  decide

/-- Claim C3, amended: the passages produced by the forced hard-split of an
oversized sentence measure at most `max_tokens` tokens each (for
`max_tokens ≥ 1`; with `max_tokens = 0` the Python code raises in `range`).
The original claim's bound on every emitted passage fails: the greedy
accumulator compares the running sum of individual sentence counts against
`target_tokens`, but the emitted passage is the space-joined text, whose
count can exceed `max_tokens` (see the counterexample). -/
theorem claim_C3_amended (maxT : ℕ) (t : Str) (h : 1 ≤ maxT) :
    ∀ p ∈ hardSplit maxT t, countTokens p ≤ maxT := by
  intro p hp
  unfold hardSplit at hp
  simp only [List.mem_map, List.mem_range] at hp
  obtain ⟨q, -, rfl⟩ := hp
  unfold countTokens
  have hlen : ((t.drop (q * (maxT * 4))).take (maxT * 4)).length ≤ maxT * 4 := by
    rw [List.length_take]
    exact min_le_left _ _
  calc ((t.drop (q * (maxT * 4))).take (maxT * 4)).length / 4
      ≤ (maxT * 4) / 4 := Nat.div_le_div_right hlen
    _ = maxT := Nat.mul_div_cancel maxT (by norm_num)

/-- Witness for claim C3's amended theorem: hard-splitting a 5-character
sentence with `max_tokens = 1` yields the 4-character piece `"abcd"`, of
token count `1 ≤ 1`. -/
theorem claim_C3_witness :
    countTokens (['a', 'b', 'c', 'd'] : Str) ≤ 1 :=
  claim_C3_amended 1 ['a', 'b', 'c', 'd', 'e'] (by decide)
    ['a', 'b', 'c', 'd'] (by decide)

theorem enumFrom_getElem? {α : Type} (l : List α) (n i : ℕ) :
    (List.enumFrom n l)[i]? = l[i]?.map (fun a => (n + i, a)) := by
  induction l generalizing n i with
  | nil => simp
  | cons a l ih =>
    cases i with
    | zero => simp
    | succ j =>
      simp only [List.enumFrom_cons, List.getElem?_cons_succ, ih (n + 1) j]
      cases l[j]? <;> simp <;> omega

theorem embedFallback_getElem? (dim : ℕ) (texts : List Str) (i : ℕ) :
    (embedFallback dim texts)[i]? = texts[i]?.map (fallbackVec dim i) := by
  unfold embedFallback List.enum
  rw [List.getElem?_map, enumFrom_getElem?]
  cases texts[i]? <;> simp

theorem fallbackVec_getElem? (dim i : ℕ) (t : Str) (j : ℕ) (hj : j < dim) :
    (fallbackVec dim i t)[j]? =
      some ((((fallbackBase t * (j + i + 1)) % 17 : ℕ) : ℚ) / 17) := by
  unfold fallbackVec
  rw [List.getElem?_map]
  simp [List.getElem?_range hj]

/-- Claim C8: the synthetic fallback embedding of the text at miss-batch
position `i` is the vector whose component `j` equals
`((base * (j + i + 1)) mod 17) / 17` with `base` the sum of the character
codes, or 1 when that sum is 0; in particular two calls with identical text
and position yield identical vectors. -/
theorem claim_C8_fallback_formula (dim : ℕ) (texts : List Str) (i j : ℕ)
    (hi : i < texts.length) (hj : j < dim) :
    (embedFallback dim texts)[i]? = some (fallbackVec dim i (texts.get ⟨i, hi⟩)) ∧
    (fallbackVec dim i (texts.get ⟨i, hi⟩))[j]? =
      some ((((fallbackBase (texts.get ⟨i, hi⟩) * (j + i + 1)) % 17 : ℕ) : ℚ) / 17) ∧
    ∀ (texts2 : List Str) (hi2 : i < texts2.length),
      texts.get ⟨i, hi⟩ = texts2.get ⟨i, hi2⟩ →
      (embedFallback dim texts)[i]? = (embedFallback dim texts2)[i]? := by
  refine ⟨?_, fallbackVec_getElem? dim i _ j hj, ?_⟩
  · rw [embedFallback_getElem?, List.getElem?_eq_getElem hi]
    rfl
  · intro texts2 hi2 heq
    rw [embedFallback_getElem?, embedFallback_getElem?,
      List.getElem?_eq_getElem hi, List.getElem?_eq_getElem hi2]
    simp only [Option.map_some']
    rw [show texts.get ⟨i, hi⟩ = texts[i] from rfl] at heq
    rw [show texts2.get ⟨i, hi2⟩ = texts2[i] from rfl] at heq
    rw [heq]

/-- Witness for claim C8 at `texts = ["ab"]`, `dim = 2`, `i = 0`, `j = 1`:
`base = 97 + 98 = 195`, component 1 is `((195 * 2) % 17) / 17 = 16 / 17`. -/
theorem claim_C8_witness :
    (embedFallback 2 [['a', 'b']])[0]? = some (fallbackVec 2 0 ['a', 'b']) ∧
    (fallbackVec 2 0 ['a', 'b'])[1]? =
      some ((((fallbackBase ['a', 'b'] * (1 + 0 + 1)) % 17 : ℕ) : ℚ) / 17) ∧
    ∀ (texts2 : List Str) (hi2 : 0 < texts2.length),
      (([['a', 'b']] : List Str).get ⟨0, by decide⟩) = texts2.get ⟨0, hi2⟩ →
      (embedFallback 2 [['a', 'b']])[0]? = (embedFallback 2 texts2)[0]? :=
  claim_C8_fallback_formula 2 [['a', 'b']] 0 1 (by decide) (by decide)

/-- Claim C9: whenever the store is unavailable (not connected or no container
handle) or the collection contains no documents, `search_similar` returns the
empty list and, in particular, issues no vector query. -/
theorem claim_C9_unavailable_or_empty (st : StoreState) (k : ℕ) (s : ℚ)
    (h : ¬ isAvailable st ∨ st.documentCount = 0) :
    searchSimilar st k s = ([], false) := by
  unfold searchSimilar
  rcases h with h | h
  · rw [if_pos h]
  · by_cases ha : isAvailable st
    · rw [if_neg (by simpa using ha), if_pos]
      simp [hasDocuments, h]
    · rw [if_pos ha]

/-- Witness for claim C9: a disconnected store (whose query would even
succeed with an in-range item) yields `([], false)`. -/
theorem claim_C9_witness :
    searchSimilar
      ⟨false, true, 5, fun _ => .ok [⟨none, none, none, none, some 0⟩]⟩ 3 (7/10) =
      ([], false) :=
  claim_C9_unavailable_or_empty _ 3 (7/10) (Or.inl (by decide))

theorem toRetrievalResult_similarity {minSim : ℚ} {it : QueryItem} {r : RetrievalResult}
    (h : toRetrievalResult minSim it = some r) :
    r.similarity = 1 - it.distance.getD 1 ∧ minSim ≤ r.similarity := by
  simp only [toRetrievalResult] at h
  split at h
  · cases h
    exact ⟨rfl, by assumption⟩
  · cases h

/-- Claim C1: whenever the store's vector query answers with at most `top_k`
items in ascending order of reported distance (the `SELECT TOP @top_k ...
ORDER BY VectorDistance` contract), `search_similar` returns at most `top_k`
results, every returned result has `similarity = 1 - distance ≥ min_similarity`,
and the results are sorted in descending order of similarity. -/
theorem claim_C1_search_contract (st : StoreState) (k : ℕ) (s : ℚ)
    (items : List QueryItem)
    (hq : st.queryResult k = .ok items)
    (hlen : items.length ≤ k)
    (hsort : items.Pairwise (fun a b => a.distance.getD 1 ≤ b.distance.getD 1)) :
    (searchSimilar st k s).1.length ≤ k ∧
    (∀ r ∈ (searchSimilar st k s).1, s ≤ r.similarity) ∧
    (searchSimilar st k s).1.Pairwise (fun a b => b.similarity ≤ a.similarity) := by
  unfold searchSimilar
  by_cases ha : isAvailable st
  · rw [if_neg (not_not_intro ha)]
    by_cases hd : hasDocuments st
    · rw [if_neg (not_not_intro hd), hq]
      refine ⟨le_trans (List.length_filterMap_le _ _) hlen, ?_, ?_⟩
      · intro r hr
        obtain ⟨it, -, hit⟩ := List.mem_filterMap.mp hr
        exact (toRetrievalResult_similarity hit).2
      · rw [List.pairwise_filterMap]
        refine hsort.imp ?_
        intro a b hab x hx y hy
        rw [Option.mem_def] at hx hy
        rw [(toRetrievalResult_similarity hx).1, (toRetrievalResult_similarity hy).1]
        linarith
    · rw [if_pos hd]
      exact ⟨by simp, by simp, by simp⟩
  · rw [if_pos ha]
    exact ⟨by simp, by simp, by simp⟩

/-- Witness for claim C1: a connected store answering two items of distances
`1/10 ≤ 2/10` under `top_k = 2`, `min_similarity = 1/2`. -/
theorem claim_C1_witness :
    (searchSimilar
        ⟨true, true, 2, fun _ => .ok
          [⟨none, none, none, none, some (1/10)⟩,
           ⟨none, none, none, none, some (2/10)⟩]⟩ 2 (1/2)).1.length ≤ 2 ∧
    (∀ r ∈ (searchSimilar
        ⟨true, true, 2, fun _ => .ok
          [⟨none, none, none, none, some (1/10)⟩,
           ⟨none, none, none, none, some (2/10)⟩]⟩ 2 (1/2)).1,
      (1/2 : ℚ) ≤ r.similarity) ∧
    (searchSimilar
        ⟨true, true, 2, fun _ => .ok
          [⟨none, none, none, none, some (1/10)⟩,
           ⟨none, none, none, none, some (2/10)⟩]⟩ 2 (1/2)).1.Pairwise
      (fun a b => b.similarity ≤ a.similarity) :=
  claim_C1_search_contract _ 2 (1/2) _ rfl (by simp)
    (by norm_num [List.pairwise_cons])

section DictLemmas

variable {α β : Type} [DecidableEq α]

theorem dictGet_cons (k' : α) (v : β) (rest : List (α × β)) (k : α) :
    dictGet ((k', v) :: rest) k = if k' = k then some v else dictGet rest k := rfl

theorem dictGet_eq_none {l : List (α × β)} {k : α} (h : k ∉ l.map Prod.fst) :
    dictGet l k = none := by
  induction l with
  | nil => rfl
  | cons p rest ih =>
    obtain ⟨k', v⟩ := p
    simp only [List.map_cons, List.mem_cons, not_or] at h
    simp only [dictGet, if_neg (fun hh : k' = k => h.1 hh.symm)]
    exact ih h.2

theorem dictGet_mem {l : List (α × β)} {p : α × β}
    (hn : (l.map Prod.fst).Nodup) (hp : p ∈ l) : dictGet l p.1 = some p.2 := by
  induction l with
  | nil => cases hp
  | cons q rest ih =>
    obtain ⟨k', v⟩ := q
    simp only [List.map_cons, List.nodup_cons] at hn
    rcases List.mem_cons.mp hp with h | h
    · subst h
      simp [dictGet]
    · have hne : k' ≠ p.1 := by
        intro he
        exact hn.1 (he ▸ List.mem_map_of_mem Prod.fst h)
      simp only [dictGet, if_neg hne]
      exact ih hn.2 h

theorem dictGet_isSome_of_mem_keys {l : List (α × β)} {k : α}
    (h : k ∈ l.map Prod.fst) : (dictGet l k).isSome := by
  induction l with
  | nil => cases h
  | cons p rest ih =>
    obtain ⟨k', v⟩ := p
    simp only [dictGet]
    by_cases he : k' = k
    · simp [he]
    · simp only [if_neg he]
      simp only [List.map_cons, List.mem_cons] at h
      exact ih (h.resolve_left (fun hh => he hh.symm))

theorem dictSet_fresh {l : List (α × β)} {k : α} (v : β)
    (h : k ∉ l.map Prod.fst) : dictSet l k v = l ++ [(k, v)] := by
  induction l with
  | nil => rfl
  | cons p rest ih =>
    obtain ⟨k', v'⟩ := p
    simp only [List.map_cons, List.mem_cons, not_or] at h
    simp only [dictSet, if_neg (fun hh : k' = k => h.1 hh.symm), List.cons_append]
    rw [ih h.2]

theorem length_dictSet_le (l : List (α × β)) (k : α) (v : β) :
    (dictSet l k v).length ≤ l.length + 1 := by
  induction l with
  | nil => simp [dictSet]
  | cons p rest ih =>
    obtain ⟨k', v'⟩ := p
    simp only [dictSet]
    split
    · simp
    · simpa using Nat.succ_le_succ ih

end DictLemmas

theorem updateCache_length {maxC : ℕ} (hm : 0 < maxC) {c : Cache}
    (h : c.length ≤ maxC) (k : Str) (v : Vec) :
    (updateCache maxC c k v).length ≤ maxC := by
  unfold updateCache
  split
  · calc (dictSet (c.drop 1) k v).length ≤ (c.drop 1).length + 1 :=
          length_dictSet_le _ _ _
      _ ≤ maxC := by rw [List.length_drop]; omega
  · calc (dictSet c k v).length ≤ c.length + 1 := length_dictSet_le _ _ _
      _ ≤ maxC := by omega

theorem foldl_updateCache_length (maxC : ℕ) (hm : 0 < maxC)
    (kvs : List (Str × Vec)) :
    ∀ c : Cache, c.length ≤ maxC →
      (kvs.foldl (fun c p => updateCache maxC c p.1 p.2) c).length ≤ maxC := by
  induction kvs with
  | nil => intro c h; exact h
  | cons p rest ih =>
    intro c h
    exact ih _ (updateCache_length hm h p.1 p.2)

theorem foldl_updateCache_fresh (maxC : ℕ) (kvs : List (Str × Vec)) :
    ∀ c : Cache, c.length + kvs.length ≤ maxC →
      (∀ p ∈ kvs, dictGet c p.1 = none) → (kvs.map Prod.fst).Nodup →
      kvs.foldl (fun c p => updateCache maxC c p.1 p.2) c = c ++ kvs := by
  induction kvs with
  | nil => intro c _ _ _; simp
  | cons p rest ih =>
    intro c hlen hfresh hn
    obtain ⟨k, v⟩ := p
    simp only [List.length_cons, List.map_cons, List.nodup_cons] at hlen hn
    have hkc : k ∉ c.map Prod.fst := by
      intro hmem
      have := dictGet_isSome_of_mem_keys hmem
      rw [hfresh (k, v) (List.mem_cons_self _ _)] at this
      cases this
    have hstep : updateCache maxC c k v = c ++ [(k, v)] := by
      unfold updateCache
      rw [if_neg (by omega), dictSet_fresh v hkc]
    rw [List.foldl_cons, hstep, ih (c ++ [(k, v)]) (by simp; omega) ?_ hn.2,
      List.append_assoc]
    · rfl
    · intro q hq
      apply dictGet_eq_none
      simp only [List.map_append, List.mem_append, not_or]
      constructor
      · intro hmem
        have := dictGet_isSome_of_mem_keys hmem
        rw [hfresh q (List.mem_cons_of_mem _ hq)] at this
        cases this
      · simp only [List.map_cons, List.map_nil, List.mem_singleton]
        intro he
        exact hn.1 (he ▸ List.mem_map_of_mem Prod.fst hq)

theorem cacheScan_missTexts_nil (keyFn : Str → Str) (cache : Cache) :
    ∀ (texts : List Str) (i : ℕ),
      (∀ t ∈ texts, (dictGet cache (keyFn t)).isSome) →
      (cacheScan keyFn cache texts i).missTexts = [] := by
  intro texts
  induction texts with
  | nil => intro i _; rfl
  | cons t ts ih =>
    intro i hall
    have ht := hall t (List.mem_cons_self _ _)
    simp only [cacheScan]
    cases hg : dictGet cache (keyFn t) with
    | none => rw [hg] at ht; cases ht
    | some v => exact ih (i + 1) (fun u hu => hall u (List.mem_cons_of_mem _ hu))

/-- Claim C5: (a) starting from the empty cache, any sequence of
`_update_cache` insertions leaves at most `max_cache_size` entries; (b) after
inserting `max_cache_size + 1` distinct keys in order into the empty cache,
the resulting cache is exactly the insertion sequence minus its first entry,
so the first-inserted key is absent and all later keys map to their values
(strict FIFO eviction by insertion order); (c) a cache hit does not touch the
cache: `embed_texts` on all-hit input returns the cache unchanged, so hits
never refresh an entry's eviction priority. -/
theorem claim_C5_cache_fifo (maxC : ℕ) (hm : 0 < maxC) :
    (∀ kvs : List (Str × Vec),
      (kvs.foldl (fun c p => updateCache maxC c p.1 p.2) ([] : Cache)).length ≤ maxC) ∧
    (∀ (k0 : Str) (v0 : Vec) (kvs : List (Str × Vec)),
      kvs.length = maxC + 1 → (kvs.map Prod.fst).Nodup → kvs.head? = some (k0, v0) →
      kvs.foldl (fun c p => updateCache maxC c p.1 p.2) ([] : Cache) = kvs.drop 1 ∧
      dictGet (kvs.foldl (fun c p => updateCache maxC c p.1 p.2) ([] : Cache)) k0 = none ∧
      ∀ p ∈ kvs.drop 1,
        dictGet (kvs.foldl (fun c p => updateCache maxC c p.1 p.2) ([] : Cache)) p.1 =
          some p.2) ∧
    (∀ (keyFn : Str → Str) (remote : Option (List Str → Except Unit (List Vec)))
        (dim : ℕ) (cache : Cache) (texts : List Str),
      (∀ t ∈ texts, (dictGet cache (keyFn t)).isSome) →
      (embedTexts keyFn remote dim maxC cache texts).2 = cache) := by
  refine ⟨fun kvs => foldl_updateCache_length maxC hm kvs [] (by simp), ?_, ?_⟩
  · intro k0 v0 kvs hlen hn hhead
    have hsplit : kvs.take maxC ++ kvs.drop maxC = kvs := List.take_append_drop _ _
    have hlenf : (kvs.take maxC).length = maxC := by
      rw [List.length_take]; omega
    have hlenb : (kvs.drop maxC).length = 1 := by
      rw [List.length_drop]; omega
    obtain ⟨pl, hpl⟩ := List.length_eq_one.mp hlenb
    have hnf : ((kvs.take maxC).map Prod.fst).Nodup := by
      rw [List.map_take]
      exact (List.take_sublist _ _).nodup hn
    have hfront : (kvs.take maxC).foldl
        (fun c p => updateCache maxC c p.1 p.2) ([] : Cache) = kvs.take maxC := by
      have := foldl_updateCache_fresh maxC (kvs.take maxC) []
        (by simp [hlenf]) (fun p _ => rfl) hnf
      simpa using this
    have hkeys : kvs.map Prod.fst = (kvs.take maxC).map Prod.fst ++ [pl.1] := by
      conv_lhs => rw [← hsplit]
      rw [List.map_append, hpl]
      rfl
    have hplf : pl.1 ∉ (kvs.take maxC).map Prod.fst := by
      rw [hkeys] at hn
      have := List.disjoint_of_nodup_append hn
      intro hmem
      exact this hmem (List.mem_singleton_self _)
    have hfin : kvs.foldl (fun c p => updateCache maxC c p.1 p.2) ([] : Cache) =
        kvs.drop 1 := by
      conv_lhs => rw [← hsplit]
      rw [List.foldl_append, hfront, hpl, List.foldl_cons, List.foldl_nil]
      unfold updateCache
      rw [if_pos (le_of_eq hlenf.symm),
        dictSet_fresh pl.2
          (fun hmem => hplf (List.map_subset Prod.fst (List.drop_subset 1 _) hmem))]
      conv_rhs => rw [← hsplit]
      rw [List.drop_append_of_le_length (by omega), hpl]
    have hcons : kvs = (k0, v0) :: kvs.drop 1 := by
      cases kvs with
      | nil => cases hhead
      | cons a l =>
        simp only [List.head?_cons, Option.some_inj] at hhead
        rw [hhead]
        rfl
    have hk0 : k0 ∉ (kvs.drop 1).map Prod.fst := by
      have hn' := hn
      conv at hn' => rw [hcons]
      simp only [List.map_cons, List.nodup_cons] at hn'
      exact hn'.1
    refine ⟨hfin, ?_, ?_⟩
    · rw [hfin]
      exact dictGet_eq_none hk0
    · intro p hp
      rw [hfin]
      exact dictGet_mem ((List.map_drop ..) ▸ ((List.drop_sublist 1 _).map Prod.fst).nodup hn) hp
  · intro keyFn remote dim cache texts hall
    have hmiss := cacheScan_missTexts_nil keyFn cache texts 0 hall
    unfold embedTexts
    split
    · rfl
    · simp [hmiss]

/-- Witness for claim C5 at `max_cache_size = 2` and the three distinct keys
`"a"`, `"b"`, `"c"`: the final cache is the last two entries and the first
key is gone. -/
theorem claim_C5_witness :
    ([((['a'] : Str), ([1] : Vec)), (['b'], [2]), (['c'], [3])].foldl
        (fun c p => updateCache 2 c p.1 p.2) ([] : Cache)) =
      [(['b'], [2]), (['c'], [3])] ∧
    dictGet
      ([((['a'] : Str), ([1] : Vec)), (['b'], [2]), (['c'], [3])].foldl
        (fun c p => updateCache 2 c p.1 p.2) ([] : Cache)) ['a'] = none :=
  have h := (claim_C5_cache_fifo 2 (by norm_num)).2.1 ['a'] [1]
    [(['a'], [1]), (['b'], [2]), (['c'], [3])] rfl (by decide) rfl
  ⟨h.1, h.2.1⟩

theorem zipWith_getElem? {α β γ : Type} (f : α → β → γ) (l : List α) (l' : List β)
    (k : ℕ) :
    (List.zipWith f l l')[k]? = l[k]?.bind fun a => (l'[k]?).map (f a) := by
  induction l generalizing l' k with
  | nil => simp
  | cons a l ih =>
    cases l' with
    | nil => simp
    | cons b l' =>
      cases k with
      | zero => simp
      | succ j => simpa using ih l' j

theorem countTokens_getTail_le_overlap (t : Str) (n : ℕ) (hn : 1 ≤ n) :
    countTokens (getTail t n) ≤ n := by
  unfold getTail pyTailSlice countTokens
  split
  · rw [if_neg (by omega)]
    rw [List.length_drop]
    have : t.length - (t.length - 4 * n) = 4 * n := by omega
    rw [this]
    omega
  · have : t.length ≤ 4 * n := by omega
    omega

/-- Claim C6: with at least two passages and positive `overlap_tokens`, the
overlap pass leaves the first passage unchanged and turns every later passage
`k` into the tail (of at most `overlap_tokens` tokens) of passage `k-1`'s
pre-overlap text, a space, then passage `k`'s original text; it is the
identity when `overlap_tokens <= 0` or fewer than two passages exist. -/
theorem claim_C6_overlap (cfg : ChunkConfig) (chunks : List Chunk) :
    (cfg.overlap_tokens ≤ 0 ∨ chunks.length < 2 → applyOverlap cfg chunks = chunks) ∧
    (0 < cfg.overlap_tokens → 2 ≤ chunks.length →
      (applyOverlap cfg chunks).length = chunks.length ∧
      (applyOverlap cfg chunks)[0]? = chunks[0]? ∧
      (∀ k : ℕ,
        (applyOverlap cfg chunks)[k + 1]? =
          (chunks[k]?.bind fun prev => chunks[k + 1]?.map fun cur =>
            { cur with
              text := getTail prev.text cfg.overlap_tokens.toNat ++ ' ' :: cur.text })) ∧
      (∀ t : Str,
        countTokens (getTail t cfg.overlap_tokens.toNat) ≤ cfg.overlap_tokens.toNat)) := by
  constructor
  · intro h
    unfold applyOverlap
    rw [if_pos h]
  · intro ho hl
    have hnot : ¬ (cfg.overlap_tokens ≤ 0 ∨ chunks.length < 2) := by
      push_neg
      exact ⟨ho, hl⟩
    cases chunks with
    | nil => simp at hl
    | cons c rest =>
      unfold applyOverlap
      rw [if_neg hnot]
      dsimp only
      refine ⟨?_, by simp, ?_, ?_⟩
      · simp only [List.length_cons, List.length_zipWith]
        simp at hl
        omega
      · intro k
        simp only [List.getElem?_cons_succ]
        rw [zipWith_getElem?]
        rfl
      · intro t
        exact countTokens_getTail_le_overlap t _ (by omega)

/-- Witness for claim C6 on the two chunks `"xy"` and `"z"` with
`overlap_tokens = 1`. -/
theorem claim_C6_witness :
    (applyOverlap ⟨5, 10, 1, 0⟩
        [⟨['x', 'y'], 0, ['d']⟩, ⟨['z'], 1, ['d']⟩]).length = 2 ∧
    (applyOverlap ⟨5, 10, 1, 0⟩
        [⟨['x', 'y'], 0, ['d']⟩, ⟨['z'], 1, ['d']⟩])[0]? =
      some ⟨['x', 'y'], 0, ['d']⟩ ∧
    (applyOverlap ⟨5, 10, 1, 0⟩
        [⟨['x', 'y'], 0, ['d']⟩, ⟨['z'], 1, ['d']⟩])[1]? =
      some ⟨['x', 'y', ' ', 'z'], 1, ['d']⟩ ∧
    countTokens (getTail ['q'] 1) ≤ 1 :=
  have h := (claim_C6_overlap ⟨5, 10, 1, 0⟩
    [⟨['x', 'y'], 0, ['d']⟩, ⟨['z'], 1, ['d']⟩]).2 (by decide) (by decide)
  ⟨h.1, h.2.1, h.2.2.1 0, h.2.2.2 ['q']⟩

theorem length_scatter (pairs : List (ℕ × Vec)) :
    ∀ arr : List (Option Vec), (scatter arr pairs).length = arr.length := by
  induction pairs with
  | nil => intro arr; rfl
  | cons p rest ih =>
    intro arr
    show (scatter (arr.set p.1 (some p.2)) rest).length = arr.length
    rw [ih, List.length_set]

theorem scatter_getElem? (pairs : List (ℕ × Vec)) :
    ∀ (arr : List (Option Vec)) (j : ℕ), (pairs.map Prod.fst).Nodup →
      (scatter arr pairs)[j]? =
        match dictGet pairs j with
        | some v => if j < arr.length then some (some v) else none
        | none => arr[j]? := by
  induction pairs with
  | nil => intro arr j _; rfl
  | cons p rest ih =>
    intro arr j hn
    obtain ⟨i, v⟩ := p
    simp only [List.map_cons, List.nodup_cons] at hn
    have hstep : scatter arr ((i, v) :: rest) = scatter (arr.set i (some v)) rest := rfl
    rw [hstep, ih (arr.set i (some v)) j hn.2]
    by_cases hij : i = j
    · subst hij
      rw [dictGet_eq_none hn.1, dictGet_cons, if_pos rfl]
      dsimp only
      by_cases hi : i < arr.length
      · rw [List.getElem?_set_self hi, if_pos hi]
      · rw [if_neg hi, List.getElem?_eq_none (by rw [List.length_set]; omega)]
    · rw [dictGet_cons, if_neg hij]
      cases hd : dictGet rest j with
      | some w =>
        dsimp only
        rw [List.length_set]
      | none =>
        dsimp only
        rw [List.getElem?_set_ne hij]

theorem cacheScan_hit_pairs (keyFn : Str → Str) (cache : Cache) :
    ∀ (ts : List Str) (i0 : ℕ),
      ((cacheScan keyFn cache ts i0).hitIdx).zip ((cacheScan keyFn cache ts i0).hitVecs) =
        (List.enumFrom i0 ts).filterMap
          (fun p => (dictGet cache (keyFn p.2)).map (fun v => (p.1, v))) := by
  intro ts
  induction ts with
  | nil => intro i0; rfl
  | cons t ts ih =>
    intro i0
    simp only [cacheScan, List.enumFrom_cons, List.filterMap_cons]
    cases hg : dictGet cache (keyFn t) with
    | some v => simpa [List.zip_cons_cons] using ih (i0 + 1)
    | none => simpa using ih (i0 + 1)

theorem cacheScan_miss_pairs {γ : Type} (keyFn : Str → Str) (cache : Cache) (E : Str → γ) :
    ∀ (ts : List Str) (i0 : ℕ),
      ((cacheScan keyFn cache ts i0).missIdx).zip
          (((cacheScan keyFn cache ts i0).missTexts).map E) =
        (List.enumFrom i0 ts).filterMap
          (fun p => ((fun t => if dictGet cache (keyFn t) = none then some (E t)
            else none) p.2).map (fun v => (p.1, v))) := by
  intro ts
  induction ts with
  | nil => intro i0; rfl
  | cons t ts ih =>
    intro i0
    simp only [cacheScan, List.enumFrom_cons, List.filterMap_cons]
    cases hg : dictGet cache (keyFn t) with
    | some v => simpa [hg] using ih (i0 + 1)
    | none => simpa [hg, List.zip_cons_cons] using ih (i0 + 1)

theorem dictGet_enumFilterMap_lt {γ : Type} (gv : Str → Option γ) :
    ∀ (ts : List Str) (i0 k : ℕ), k < i0 →
      dictGet ((List.enumFrom i0 ts).filterMap
        (fun p => (gv p.2).map (fun v => (p.1, v)))) k = none := by
  intro ts
  induction ts with
  | nil => intro i0 k _; rfl
  | cons t ts ih =>
    intro i0 k hk
    simp only [List.enumFrom_cons, List.filterMap_cons]
    cases gv t with
    | some v =>
      simp only [Option.map_some', dictGet, if_neg (by omega : ¬ i0 = k)]
      exact ih (i0 + 1) k (by omega)
    | none => exact ih (i0 + 1) k (by omega)

theorem dictGet_enumFilterMap {γ : Type} (gv : Str → Option γ) :
    ∀ (ts : List Str) (i0 j : ℕ) (hj : j < ts.length),
      dictGet ((List.enumFrom i0 ts).filterMap
        (fun p => (gv p.2).map (fun v => (p.1, v)))) (i0 + j) =
        gv (ts.get ⟨j, hj⟩) := by
  intro ts
  induction ts with
  | nil => intro i0 j hj; cases hj
  | cons t ts ih =>
    intro i0 j hj
    simp only [List.enumFrom_cons, List.filterMap_cons]
    cases hg : gv t with
    | some v =>
      simp only [Option.map_some']
      cases j with
      | zero =>
        rw [show (t :: ts).get ⟨0, hj⟩ = t from rfl, hg, dictGet_cons,
          if_pos (by omega : i0 = i0 + 0)]
      | succ k =>
        rw [dictGet_cons, if_neg (by omega : ¬ i0 = i0 + (k + 1)),
          show i0 + (k + 1) = (i0 + 1) + k by omega]
        exact ih (i0 + 1) k (by simpa using hj)
    | none =>
      simp only [Option.map_none']
      cases j with
      | zero =>
        rw [show (t :: ts).get ⟨0, hj⟩ = t from rfl, hg, Nat.add_zero]
        exact dictGet_enumFilterMap_lt gv ts (i0 + 1) i0 (by omega)
      | succ k =>
        rw [show i0 + (k + 1) = (i0 + 1) + k by omega]
        exact ih (i0 + 1) k (by simpa using hj)

theorem enumFilterMap_keys_lb {γ : Type} (gv : Str → Option γ) :
    ∀ (ts : List Str) (i0 : ℕ) (q : ℕ × γ),
      q ∈ (List.enumFrom i0 ts).filterMap (fun p => (gv p.2).map (fun v => (p.1, v))) →
      i0 ≤ q.1 := by
  intro ts
  induction ts with
  | nil => intro i0 q hq; cases hq
  | cons t ts ih =>
    intro i0 q hq
    simp only [List.enumFrom_cons, List.filterMap_cons] at hq
    cases hg : gv t with
    | some v =>
      rw [hg] at hq
      simp only [Option.map_some'] at hq
      rcases List.mem_cons.mp hq with h | h
      · subst h; exact le_rfl
      · exact le_trans (by omega) (ih (i0 + 1) q h)
    | none =>
      rw [hg] at hq
      simp only [Option.map_none'] at hq
      exact le_trans (by omega) (ih (i0 + 1) q hq)

theorem nodup_enumFilterMap_keys {γ : Type} (gv : Str → Option γ) :
    ∀ (ts : List Str) (i0 : ℕ),
      (((List.enumFrom i0 ts).filterMap
        (fun p => (gv p.2).map (fun v => (p.1, v)))).map Prod.fst).Nodup := by
  intro ts
  induction ts with
  | nil => intro i0; simp
  | cons t ts ih =>
    intro i0
    simp only [List.enumFrom_cons, List.filterMap_cons]
    cases gv t with
    | some v =>
      simp only [Option.map_some', List.map_cons, List.nodup_cons]
      refine ⟨?_, ih (i0 + 1)⟩
      intro hmem
      obtain ⟨q, hq, hq1⟩ := List.mem_map.mp hmem
      have := enumFilterMap_keys_lb gv ts (i0 + 1) q hq
      omega
    | none => exact ih (i0 + 1)

theorem mem_keys_of_dictGet_isSome {α β : Type} [DecidableEq α]
    {l : List (α × β)} {k : α} (h : (dictGet l k).isSome) : k ∈ l.map Prod.fst := by
  by_contra hmem
  rw [dictGet_eq_none hmem] at h
  cases h

theorem dictGet_zip_isSome {γ : Type} {ks : List ℕ} {j : ℕ} :
    ∀ {vs : List γ}, ks.length ≤ vs.length → j ∈ ks →
      (dictGet (ks.zip vs) j).isSome := by
  induction ks with
  | nil => intro vs _ hj; cases hj
  | cons k ks ih =>
    intro vs hlen hj
    cases vs with
    | nil => simp at hlen
    | cons v vs =>
      simp only [List.zip_cons_cons, dictGet]
      by_cases hkj : k = j
      · simp [hkj]
      · rw [if_neg hkj]
        exact ih (by simpa using hlen)
          ((List.mem_cons.mp hj).resolve_left (fun hh => hkj hh.symm))

theorem cacheScan_lengths (keyFn : Str → Str) (cache : Cache) :
    ∀ (ts : List Str) (i0 : ℕ),
      ((cacheScan keyFn cache ts i0).missIdx).length =
        ((cacheScan keyFn cache ts i0).missTexts).length ∧
      ((cacheScan keyFn cache ts i0).hitIdx).length =
        ((cacheScan keyFn cache ts i0).hitVecs).length := by
  intro ts
  induction ts with
  | nil => intro i0; exact ⟨rfl, rfl⟩
  | cons t ts ih =>
    intro i0
    simp only [cacheScan]
    cases dictGet cache (keyFn t) with
    | some v => simpa using ih (i0 + 1)
    | none => simpa using ih (i0 + 1)

theorem length_embedFallback (dim : ℕ) (ts : List Str) :
    (embedFallback dim ts).length = ts.length := by
  simp [embedFallback]

theorem embedTexts_fst_eq (keyFn : Str → Str) (E : Str → Vec)
    (f : List Str → Except Unit (List Vec)) (dim maxC : ℕ) (cache : Cache)
    (texts : List Str) (htex : texts ≠ [])
    (hremote : ∀ ts, f ts = .ok (ts.map E)) :
    (embedTexts keyFn (some f) dim maxC cache texts).1 =
      scatter
        (scatter (List.replicate texts.length none)
          (((cacheScan keyFn cache texts 0).hitIdx).zip
            ((cacheScan keyFn cache texts 0).hitVecs)))
        (((cacheScan keyFn cache texts 0).missIdx).zip
          (((cacheScan keyFn cache texts 0).missTexts).map E)) := by
  unfold embedTexts
  rw [if_neg htex]
  by_cases hmiss : (cacheScan keyFn cache texts 0).missTexts = []
  · simp [hmiss]
  · simp only [if_neg hmiss, hremote]

theorem scatter_scatter_getElem? (keyFn : Str → Str) (E : Str → Vec)
    (cache : Cache) (texts : List Str) (j : ℕ) (hj : j < texts.length) :
    (scatter
        (scatter (List.replicate texts.length (none : Option Vec))
          (((cacheScan keyFn cache texts 0).hitIdx).zip
            ((cacheScan keyFn cache texts 0).hitVecs)))
        (((cacheScan keyFn cache texts 0).missIdx).zip
          (((cacheScan keyFn cache texts 0).missTexts).map E)))[j]? =
      some (some ((dictGet cache (keyFn (texts.get ⟨j, hj⟩))).getD
        (E (texts.get ⟨j, hj⟩)))) := by
  have hmpairs := cacheScan_miss_pairs keyFn cache E texts 0
  have hhpairs := cacheScan_hit_pairs keyFn cache texts 0
  rw [hmpairs, scatter_getElem? _ _ j (nodup_enumFilterMap_keys
    (fun t => if dictGet cache (keyFn t) = none then some (E t) else none) texts 0)]
  have hg1 := dictGet_enumFilterMap
    (fun t => if dictGet cache (keyFn t) = none then some (E t) else none) texts 0 j hj
  rw [Nat.zero_add] at hg1
  rw [hg1]
  cases hhit : dictGet cache (keyFn (texts.get ⟨j, hj⟩)) with
  | none =>
    rw [if_pos rfl]
    dsimp only
    rw [length_scatter, List.length_replicate, if_pos hj]
    simp
  | some w =>
    rw [if_neg (by simp)]
    dsimp only
    rw [hhpairs, scatter_getElem? _ _ j (nodup_enumFilterMap_keys
      (fun t => dictGet cache (keyFn t)) texts 0)]
    have hg2 := dictGet_enumFilterMap (fun t => dictGet cache (keyFn t)) texts 0 j hj
    rw [Nat.zero_add] at hg2
    rw [hg2, hhit]
    dsimp only
    rw [List.length_replicate, if_pos hj]
    simp

/-- Claim C2: when the remote embedding call maps each miss text to its
embedding in input order (`E` pointwise), `embed_texts` returns one vector per
input text, at the input's position: position `i` gets the cached vector of
`texts[i]` on a hit, and `E texts[i]` on a miss, regardless of how the inputs
are partitioned into hits and misses. -/
theorem claim_C2_embed_order (keyFn : Str → Str) (E : Str → Vec)
    (f : List Str → Except Unit (List Vec)) (dim maxC : ℕ) (cache : Cache)
    (texts : List Str) (hremote : ∀ ts, f ts = .ok (ts.map E)) :
    (embedTexts keyFn (some f) dim maxC cache texts).1 =
      texts.map (fun t => some ((dictGet cache (keyFn t)).getD (E t))) := by
  by_cases htex : texts = []
  · subst htex
    simp [embedTexts]
  · rw [embedTexts_fst_eq keyFn E f dim maxC cache texts htex hremote]
    apply List.ext_getElem?
    intro j
    by_cases hj : j < texts.length
    · rw [scatter_scatter_getElem? keyFn E cache texts j hj,
        List.getElem?_map, List.getElem?_eq_getElem hj]
      simp
    · rw [List.getElem?_eq_none
        (by rw [length_scatter, length_scatter, List.length_replicate]; omega),
        List.getElem?_eq_none (by rw [List.length_map]; omega)]

/-- Witness for claim C2: two texts, the first a cache hit (vector `[5]`), the
second a miss embedded remotely to `[9]`. -/
theorem claim_C2_witness :
    (embedTexts id (some fun ts => .ok (ts.map (fun _ => ([9] : Vec)))) 1 100
        [((['h'] : Str), ([5] : Vec))] [['h'], ['x']]).1 =
      [some [(5 : ℚ)], some [(9 : ℚ)]] := by
  have h := claim_C2_embed_order id (fun _ => ([9] : Vec))
    (fun ts => .ok (ts.map (fun _ => ([9] : Vec)))) 1 100
    [((['h'] : Str), ([5] : Vec))] [['h'], ['x']] (fun ts => rfl)
  rw [h]
  rfl

theorem scatter_scatter_isSome (keyFn : Str → Str) (cache : Cache)
    (texts : List Str) (newVecs : List Vec)
    (hlen : newVecs.length = ((cacheScan keyFn cache texts 0).missTexts).length)
    (j : ℕ) (hj : j < texts.length) :
    ∃ v : Vec,
      (scatter
          (scatter (List.replicate texts.length (none : Option Vec))
            (((cacheScan keyFn cache texts 0).hitIdx).zip
              ((cacheScan keyFn cache texts 0).hitVecs)))
          (((cacheScan keyFn cache texts 0).missIdx).zip newVecs))[j]? =
        some (some v) := by
  have hmi_len : ((cacheScan keyFn cache texts 0).missIdx).length =
      ((cacheScan keyFn cache texts 0).missTexts).length :=
    (cacheScan_lengths keyFn cache texts 0).1
  have hz : ((cacheScan keyFn cache texts 0).missIdx).zip
      ((cacheScan keyFn cache texts 0).missTexts) =
      (List.enumFrom 0 texts).filterMap
        (fun p => ((fun t => if dictGet cache (keyFn t) = none then some (id t)
          else none) p.2).map (fun v => (p.1, v))) := by
    have := cacheScan_miss_pairs keyFn cache id texts 0
    simpa using this
  have hkeys : ((((cacheScan keyFn cache texts 0).missIdx).zip newVecs).map
      Prod.fst) = (cacheScan keyFn cache texts 0).missIdx :=
    List.map_fst_zip _ _ (by omega)
  have hmikeys : (cacheScan keyFn cache texts 0).missIdx =
      ((List.enumFrom 0 texts).filterMap
        (fun p => ((fun t => if dictGet cache (keyFn t) = none then some (id t)
          else none) p.2).map (fun v => (p.1, v)))).map Prod.fst := by
    rw [← hz, List.map_fst_zip _ _ (le_of_eq hmi_len)]
  have hnodup : ((((cacheScan keyFn cache texts 0).missIdx).zip newVecs).map
      Prod.fst).Nodup := by
    rw [hkeys, hmikeys]
    exact nodup_enumFilterMap_keys
      (fun t => if dictGet cache (keyFn t) = none then some (id t) else none) texts 0
  have houter := scatter_getElem? (((cacheScan keyFn cache texts 0).missIdx).zip newVecs)
    (scatter (List.replicate texts.length none)
      (((cacheScan keyFn cache texts 0).hitIdx).zip
        ((cacheScan keyFn cache texts 0).hitVecs))) j hnodup
  have hgid := dictGet_enumFilterMap
    (fun t => if dictGet cache (keyFn t) = none then some (id t) else none) texts 0 j hj
  rw [Nat.zero_add] at hgid
  cases hhit : dictGet cache (keyFn (texts.get ⟨j, hj⟩)) with
  | none =>
    have hjm : j ∈ (cacheScan keyFn cache texts 0).missIdx := by
      have hsome : (dictGet (((cacheScan keyFn cache texts 0).missIdx).zip
          ((cacheScan keyFn cache texts 0).missTexts)) j).isSome := by
        rw [hz, hgid, if_pos hhit]
        rfl
      have := mem_keys_of_dictGet_isSome hsome
      rwa [List.map_fst_zip _ _ (le_of_eq hmi_len)] at this
    have hsome2 : (dictGet (((cacheScan keyFn cache texts 0).missIdx).zip newVecs)
        j).isSome :=
      dictGet_zip_isSome (by omega) hjm
    obtain ⟨v, hv⟩ := Option.isSome_iff_exists.mp hsome2
    refine ⟨v, ?_⟩
    rw [houter, hv]
    dsimp only
    rw [length_scatter, List.length_replicate, if_pos hj]
  | some w =>
    have hnotin : j ∉ (cacheScan keyFn cache texts 0).missIdx := by
      intro hmem
      have hhit2 : dictGet cache (keyFn texts[j]) = some w := hhit
      have := dictGet_zip_isSome (le_of_eq hmi_len) hmem
      rw [hz, hgid, if_neg (by simp [hhit2])] at this
      cases this
    have houternone : dictGet (((cacheScan keyFn cache texts 0).missIdx).zip newVecs)
        j = none := by
      apply dictGet_eq_none
      rw [hkeys]
      exact hnotin
    refine ⟨w, ?_⟩
    rw [houter, houternone]
    dsimp only
    rw [cacheScan_hit_pairs keyFn cache texts 0, scatter_getElem? _ _ j
      (nodup_enumFilterMap_keys (fun t => dictGet cache (keyFn t)) texts 0)]
    have hg2 := dictGet_enumFilterMap (fun t => dictGet cache (keyFn t)) texts 0 j hj
    rw [Nat.zero_add] at hg2
    rw [hg2, hhit]
    dsimp only
    rw [List.length_replicate, if_pos hj]

theorem embedTexts_snd_err (keyFn : Str → Str)
    (f : List Str → Except Unit (List Vec)) (dim maxC : ℕ) (cache : Cache)
    (texts : List Str) (hraise : ∀ ts, f ts = .error ()) :
    (embedTexts keyFn (some f) dim maxC cache texts).2 = cache := by
  unfold embedTexts
  split
  · rfl
  · dsimp only
    by_cases hmiss : (cacheScan keyFn cache texts 0).missTexts = []
    · rw [if_pos hmiss]
    · rw [if_neg hmiss, hraise]

theorem embedTexts_fst_err (keyFn : Str → Str)
    (f : List Str → Except Unit (List Vec)) (dim maxC : ℕ) (cache : Cache)
    (texts : List Str) (htex : texts ≠ []) (hraise : ∀ ts, f ts = .error ()) :
    (embedTexts keyFn (some f) dim maxC cache texts).1 =
      scatter
        (scatter (List.replicate texts.length none)
          (((cacheScan keyFn cache texts 0).hitIdx).zip
            ((cacheScan keyFn cache texts 0).hitVecs)))
        (((cacheScan keyFn cache texts 0).missIdx).zip
          (embedFallback dim ((cacheScan keyFn cache texts 0).missTexts))) := by
  unfold embedTexts
  rw [if_neg htex]
  by_cases hmiss : (cacheScan keyFn cache texts 0).missTexts = []
  · simp [hmiss, embedFallback]
  · simp only [if_neg hmiss, hraise]

theorem embedTexts_snd_none (keyFn : Str → Str) (dim maxC : ℕ) (cache : Cache)
    (texts : List Str) :
    (embedTexts keyFn none dim maxC cache texts).2 =
      updateCacheBatch keyFn maxC cache ((cacheScan keyFn cache texts 0).missTexts)
        (embedFallback dim ((cacheScan keyFn cache texts 0).missTexts)) := by
  unfold embedTexts
  split
  · subst ‹texts = []›
    rfl
  · dsimp only
    by_cases hmiss : (cacheScan keyFn cache texts 0).missTexts = []
    · rw [if_pos hmiss, hmiss]
      rfl
    · rw [if_neg hmiss]

theorem cacheScan_empty_cache (keyFn : Str → Str) :
    ∀ (ts : List Str) (i0 : ℕ), (cacheScan keyFn [] ts i0).missTexts = ts := by
  intro ts
  induction ts with
  | nil => intro i0; rfl
  | cons t ts ih =>
    intro i0
    simp only [cacheScan, dictGet]
    rw [ih (i0 + 1)]

/-- Claim C10: when the remote embedding call raises on every retry attempt,
`embed_texts` still returns a vector for every input text (the synthetic
fallback fills every miss position) and the cache is exactly as before the
call — the fallback vectors of this exception path are never inserted.  When
no remote client is configured, the fallback vectors are inserted into the
cache by the usual update loop: in particular, starting from an empty cache
with distinct keys and enough capacity, every text's key afterwards maps to
its fallback vector. -/
theorem claim_C10_exception_fallback_cache (keyFn : Str → Str)
    (f : List Str → Except Unit (List Vec)) (dim maxC : ℕ) (cache : Cache)
    (texts : List Str) :
    ((∀ ts, f ts = .error ()) →
      (embedTexts keyFn (some f) dim maxC cache texts).2 = cache ∧
      (embedTexts keyFn (some f) dim maxC cache texts).1.length = texts.length ∧
      (∀ j : ℕ, j < texts.length → ∃ v : Vec,
        (embedTexts keyFn (some f) dim maxC cache texts).1[j]? = some (some v))) ∧
    ((embedTexts keyFn none dim maxC cache texts).2 =
        updateCacheBatch keyFn maxC cache ((cacheScan keyFn cache texts 0).missTexts)
          (embedFallback dim ((cacheScan keyFn cache texts 0).missTexts)) ∧
      (cache = [] → (texts.map keyFn).Nodup → texts.length ≤ maxC →
        ∀ (j : ℕ) (hj : j < texts.length),
          dictGet (embedTexts keyFn none dim maxC cache texts).2
              (keyFn (texts.get ⟨j, hj⟩)) =
            some (fallbackVec dim j (texts.get ⟨j, hj⟩)))) := by
  constructor
  · intro hraise
    refine ⟨embedTexts_snd_err keyFn f dim maxC cache texts hraise, ?_, ?_⟩
    · by_cases htex : texts = []
      · subst htex
        rfl
      · rw [embedTexts_fst_err keyFn f dim maxC cache texts htex hraise,
          length_scatter, length_scatter, List.length_replicate]
    · intro j hj
      have htex : texts ≠ [] := by
        intro he
        rw [he] at hj
        cases hj
      rw [embedTexts_fst_err keyFn f dim maxC cache texts htex hraise]
      exact scatter_scatter_isSome keyFn cache texts _
        (length_embedFallback dim _) j hj
  · refine ⟨embedTexts_snd_none keyFn dim maxC cache texts, ?_⟩
    intro hc hnod hcap j hj
    subst hc
    rw [embedTexts_snd_none keyFn dim maxC [] texts,
      cacheScan_empty_cache keyFn texts 0]
    unfold updateCacheBatch
    have hfold_eq :
        (texts.zip (embedFallback dim texts)).foldl
          (fun c p => updateCache maxC c (keyFn p.1) p.2) ([] : Cache) =
        ((texts.zip (embedFallback dim texts)).map
          (fun p => (keyFn p.1, p.2))).foldl
          (fun c q => updateCache maxC c q.1 q.2) ([] : Cache) := by
      rw [List.foldl_map]
    rw [hfold_eq]
    have hflen : (embedFallback dim texts).length = texts.length :=
      length_embedFallback dim texts
    have hziplen : (texts.zip (embedFallback dim texts)).length = texts.length := by
      rw [List.length_zip]
      omega
    have hkeysmap : ((texts.zip (embedFallback dim texts)).map
        (fun p => (keyFn p.1, p.2))).map Prod.fst = texts.map keyFn := by
      rw [List.map_map, show (Prod.fst ∘ fun p : Str × Vec => (keyFn p.1, p.2)) =
        keyFn ∘ Prod.fst from rfl, ← List.map_map,
        List.map_fst_zip _ _ (le_of_eq hflen.symm)]
    have hfold := foldl_updateCache_fresh maxC
      ((texts.zip (embedFallback dim texts)).map (fun p => (keyFn p.1, p.2))) []
      (by simp only [List.length_nil, List.length_map, hziplen, Nat.zero_add]
          exact hcap)
      (fun p _ => rfl) (by rw [hkeysmap]; exact hnod)
    rw [hfold, List.nil_append]
    have hmem : (keyFn (texts.get ⟨j, hj⟩), fallbackVec dim j (texts.get ⟨j, hj⟩)) ∈
        (texts.zip (embedFallback dim texts)).map (fun p => (keyFn p.1, p.2)) := by
      have hz : (texts.zip (embedFallback dim texts))[j]? =
          some (texts.get ⟨j, hj⟩, fallbackVec dim j (texts.get ⟨j, hj⟩)) := by
        rw [show texts.zip (embedFallback dim texts) =
          List.zipWith Prod.mk texts (embedFallback dim texts) from rfl,
          zipWith_getElem?, List.getElem?_eq_getElem hj, embedFallback_getElem?,
          List.getElem?_eq_getElem hj]
        rfl
      have := List.getElem?_mem hz
      exact List.mem_map.mpr ⟨_, this, rfl⟩
    exact dictGet_mem (by rw [hkeysmap]; exact hnod) hmem

/-- Witness for claim C10: one text `"a"`, `dim = 1`, capacity 2, empty cache;
the always-raising remote leaves the cache empty yet produces a vector, and
the client-less configuration inserts the fallback vector. -/
theorem claim_C10_witness :
    (embedTexts id (some fun _ => .error ()) 1 2 [] [['a']]).2 = [] ∧
    (∃ v : Vec,
      (embedTexts id (some fun _ => .error ()) 1 2 [] [['a']]).1[0]? =
        some (some v)) ∧
    dictGet (embedTexts id none 1 2 [] [['a']]).2 ['a'] =
      some (fallbackVec 1 0 ['a']) :=
  have h := claim_C10_exception_fallback_cache id (fun _ => .error ()) 1 2 [] [['a']]
  have ha := h.1 (fun _ => rfl)
  ⟨ha.1, ha.2.2 0 (by decide),
    h.2.2 rfl (by decide) (by decide) 0 (by decide)⟩

theorem mergeStep_invariant (cfg : ChunkConfig) (st : List Chunk × Option Chunk)
    (x : Chunk)
    (h1 : List.Chain' (fun a b => cfg.min_chunk_tokens ≤ countTokens a.text ∨
      cfg.min_chunk_tokens ≤ countTokens b.text) st.1)
    (h2 : ∀ c ∈ st.1.getLast?, cfg.min_chunk_tokens ≤ countTokens c.text) :
    List.Chain' (fun a b => cfg.min_chunk_tokens ≤ countTokens a.text ∨
      cfg.min_chunk_tokens ≤ countTokens b.text) (mergeStep cfg st x).1 ∧
    (∀ c ∈ (mergeStep cfg st x).1.getLast?,
      cfg.min_chunk_tokens ≤ countTokens c.text) := by
  obtain ⟨m, b⟩ := st
  by_cases hsm : countTokens x.text < cfg.min_chunk_tokens
  · cases b with
    | none =>
      have hstep : mergeStep cfg (m, none) x = (m, some x) := by
        simp only [mergeStep]
        rw [if_pos hsm]
      rw [hstep]
      exact ⟨h1, h2⟩
    | some bc =>
      by_cases hb2 : cfg.min_chunk_tokens ≤ countTokens (bc.text ++ ' ' :: x.text)
      · have hstep : mergeStep cfg (m, some bc) x =
            (m ++ [{ bc with text := bc.text ++ ' ' :: x.text }], none) := by
          simp only [mergeStep]
          rw [if_pos hsm]
          dsimp only
          rw [if_pos hb2]
        rw [hstep]
        have hlast : (m ++ [{ bc with text := bc.text ++ ' ' :: x.text }]).getLast? =
            some { bc with text := bc.text ++ ' ' :: x.text } := by
          rw [List.getLast?_concat]
        refine ⟨List.chain'_append.mpr ⟨h1, List.chain'_singleton _, ?_⟩, ?_⟩
        · intro p hp q hq
          simp only [List.head?_cons, Option.mem_def, Option.some_inj] at hq
          subst hq
          exact Or.inr hb2
        · intro c hc
          rw [hlast] at hc
          simp only [Option.mem_def, Option.some_inj] at hc
          subst hc
          exact hb2
      · have hstep : mergeStep cfg (m, some bc) x =
            (m, some { bc with text := bc.text ++ ' ' :: x.text }) := by
          simp only [mergeStep]
          rw [if_pos hsm]
          dsimp only
          rw [if_neg hb2]
        rw [hstep]
        exact ⟨h1, h2⟩
  · have hbig : cfg.min_chunk_tokens ≤ countTokens x.text := by omega
    cases b with
    | none =>
      have hstep : mergeStep cfg (m, none) x = (m ++ [x], none) := by
        simp only [mergeStep]
        rw [if_neg hsm]
      rw [hstep]
      have hlast : (m ++ [x]).getLast? = some x := by
        rw [List.getLast?_concat]
      refine ⟨List.chain'_append.mpr ⟨h1, List.chain'_singleton _, ?_⟩, ?_⟩
      · intro p hp q hq
        simp only [List.head?_cons, Option.mem_def, Option.some_inj] at hq
        subst hq
        exact Or.inl (h2 p hp)
      · intro c hc
        rw [hlast] at hc
        simp only [Option.mem_def, Option.some_inj] at hc
        subst hc
        exact hbig
    | some bc =>
      have hstep : mergeStep cfg (m, some bc) x = (m ++ [bc, x], none) := by
        simp only [mergeStep]
        rw [if_neg hsm]
      rw [hstep]
      have hlast : (m ++ [bc, x]).getLast? = some x := by
        rw [show m ++ [bc, x] = (m ++ [bc]) ++ [x] from by simp,
          List.getLast?_concat]
      refine ⟨List.chain'_append.mpr ⟨h1, ?_, ?_⟩, ?_⟩
      · exact List.chain'_cons.mpr ⟨Or.inr hbig, List.chain'_singleton _⟩
      · intro p hp q hq
        simp only [List.head?_cons, Option.mem_def, Option.some_inj] at hq
        subst hq
        exact Or.inl (h2 p hp)
      · intro c hc
        rw [hlast] at hc
        simp only [Option.mem_def, Option.some_inj] at hc
        subst hc
        exact hbig

theorem mergeFold_invariant (cfg : ChunkConfig) :
    ∀ (l : List Chunk) (st : List Chunk × Option Chunk),
      List.Chain' (fun a b => cfg.min_chunk_tokens ≤ countTokens a.text ∨
        cfg.min_chunk_tokens ≤ countTokens b.text) st.1 →
      (∀ c ∈ st.1.getLast?, cfg.min_chunk_tokens ≤ countTokens c.text) →
      List.Chain' (fun a b => cfg.min_chunk_tokens ≤ countTokens a.text ∨
        cfg.min_chunk_tokens ≤ countTokens b.text) ((l.foldl (mergeStep cfg) st).1) ∧
      (∀ c ∈ ((l.foldl (mergeStep cfg) st).1).getLast?,
        cfg.min_chunk_tokens ≤ countTokens c.text) := by
  intro l
  induction l with
  | nil => intro st h1 h2; exact ⟨h1, h2⟩
  | cons x l ih =>
    intro st h1 h2
    have hstep := mergeStep_invariant cfg st x h1 h2
    exact ih (mergeStep cfg st x) hstep.1 hstep.2

theorem mergeFlush_chain (cfg : ChunkConfig) (st : List Chunk × Option Chunk)
    (h1 : List.Chain' (fun a b => cfg.min_chunk_tokens ≤ countTokens a.text ∨
      cfg.min_chunk_tokens ≤ countTokens b.text) st.1)
    (h2 : ∀ c ∈ st.1.getLast?, cfg.min_chunk_tokens ≤ countTokens c.text) :
    List.Chain' (fun a b => cfg.min_chunk_tokens ≤ countTokens a.text ∨
      cfg.min_chunk_tokens ≤ countTokens b.text) (mergeFlush st) := by
  obtain ⟨m, b⟩ := st
  cases b with
  | none => exact h1
  | some bc =>
    refine List.chain'_append.mpr ⟨h1, List.chain'_singleton _, ?_⟩
    intro p hp q hq
    simp only [List.head?_cons, Option.mem_def, Option.some_inj] at hq
    subst hq
    exact Or.inl (h2 p hp)

theorem chain'_reindexFrom (cfg : ChunkConfig) :
    ∀ (l : List Chunk) (i : ℕ),
      List.Chain' (fun a b => cfg.min_chunk_tokens ≤ countTokens a.text ∨
        cfg.min_chunk_tokens ≤ countTokens b.text) l →
      List.Chain' (fun a b => cfg.min_chunk_tokens ≤ countTokens a.text ∨
        cfg.min_chunk_tokens ≤ countTokens b.text) (reindexFrom i l) := by
  intro l
  induction l with
  | nil => intro i _; exact List.chain'_nil
  | cons a l ih =>
    intro i h
    rcases List.chain'_cons'.mp h with ⟨hhead, htail⟩
    rw [reindexFrom]
    apply List.chain'_cons'.mpr
    refine ⟨?_, ih (i + 1) htail⟩
    intro y hy
    cases l with
    | nil => cases hy
    | cons b l2 =>
      simp only [reindexFrom, List.head?_cons, Option.mem_def, Option.some_inj] at hy
      subst hy
      simpa using hhead b rfl

theorem mergeSmallChunks_chain (cfg : ChunkConfig) (chunks : List Chunk) :
    List.Chain' (fun a b => cfg.min_chunk_tokens ≤ countTokens a.text ∨
      cfg.min_chunk_tokens ≤ countTokens b.text) (mergeSmallChunks cfg chunks) := by
  unfold mergeSmallChunks
  split
  · exact List.chain'_nil
  · have hinv := mergeFold_invariant cfg chunks ([], none)
      List.chain'_nil (by intro c hc; cases hc)
    exact chain'_reindexFrom cfg _ 0 (mergeFlush_chain cfg _ hinv.1 hinv.2)

theorem mergeFold_id (cfg : ChunkConfig) :
    ∀ (l : List Chunk),
      List.Chain' (fun a b => cfg.min_chunk_tokens ≤ countTokens a.text ∨
        cfg.min_chunk_tokens ≤ countTokens b.text) l →
      ∀ (m : List Chunk) (b : Option Chunk),
        (match b with
         | some c => countTokens c.text < cfg.min_chunk_tokens ∧
             ∀ x ∈ l.head?, cfg.min_chunk_tokens ≤ countTokens x.text
         | none => True) →
        mergeFlush (l.foldl (mergeStep cfg) (m, b)) = m ++ b.toList ++ l := by
  intro l
  induction l with
  | nil =>
    intro _ m b _
    cases b with
    | none => simp [mergeFlush]
    | some bc => simp [mergeFlush]
  | cons x l ih =>
    intro hchain m b hb
    rcases List.chain'_cons'.mp hchain with ⟨hhead, htail⟩
    cases b with
    | some bc =>
      obtain ⟨hbc, hx⟩ := hb
      have hxbig : cfg.min_chunk_tokens ≤ countTokens x.text := hx x rfl
      have hstep : mergeStep cfg (m, some bc) x = (m ++ [bc, x], none) := by
        simp only [mergeStep]
        rw [if_neg (by omega)]
      rw [List.foldl_cons, hstep, ih htail (m ++ [bc, x]) none trivial]
      simp
    | none =>
      by_cases hsmall : countTokens x.text < cfg.min_chunk_tokens
      · have hstep : mergeStep cfg (m, none) x = (m, some x) := by
          simp only [mergeStep]
          rw [if_pos hsmall]
        rw [List.foldl_cons, hstep, ih htail m (some x) ⟨hsmall, ?_⟩]
        · simp
        · intro y hy
          have := hhead y hy
          rcases this with h | h
          · omega
          · exact h
      · have hstep : mergeStep cfg (m, none) x = (m ++ [x], none) := by
          simp only [mergeStep]
          rw [if_neg hsmall]
        rw [List.foldl_cons, hstep, ih htail (m ++ [x]) none trivial]
        simp

theorem reindexFrom_idem : ∀ (l : List Chunk) (i : ℕ),
    reindexFrom i (reindexFrom i l) = reindexFrom i l := by
  intro l
  induction l with
  | nil => intro i; rfl
  | cons c l ih =>
    intro i
    simp only [reindexFrom]
    rw [ih (i + 1)]

/-- Claim C7: the merge pass is idempotent: applying `_merge_small_chunks`
(with the same `min_chunk_tokens`) to its own output returns that output
unchanged.  The output never contains two adjacent under-threshold chunks and
is densely re-indexed, so a second walk buffers each small chunk and
immediately flushes it unchanged. -/
theorem claim_C7_merge_idempotent (cfg : ChunkConfig) (chunks : List Chunk) :
    mergeSmallChunks cfg (mergeSmallChunks cfg chunks) = mergeSmallChunks cfg chunks := by
  by_cases h0 : chunks = []
  · subst h0
    rfl
  · by_cases hout : mergeSmallChunks cfg chunks = []
    · rw [hout]
      rfl
    · have hchain := mergeSmallChunks_chain cfg chunks
      have hwalk : mergeFlush ((mergeSmallChunks cfg chunks).foldl (mergeStep cfg)
          ([], none)) = mergeSmallChunks cfg chunks := by
        simpa using mergeFold_id cfg (mergeSmallChunks cfg chunks) hchain [] none trivial
      have hdef : mergeSmallChunks cfg chunks =
          reindexFrom 0 (mergeFlush (chunks.foldl (mergeStep cfg) ([], none))) := by
        unfold mergeSmallChunks
        rw [if_neg h0]
      conv_lhs => rw [mergeSmallChunks, if_neg hout, hwalk, hdef]
      rw [reindexFrom_idem, ← hdef]

end AvatarRag

